import Mathlib

/-!
Shallow embedding of the NFS client write-back cache (fs/nfs/write.c) and
proofs about its coalescing, request-update, completion-handler, admission
and list-membership logic.
-/

set_option autoImplicit false

namespace NfsWrite

/-- Page size of the page cache: PAGE_CACHE_SIZE = PAGE_SIZE (4096 on i386). -/
def PAGE_CACHE_SIZE : Nat := 4096

/-- The fields of `struct nfs_page` (write.c:91-105) that the list and
coalescing operations inspect: the owning file (`wb_file`, as an identity),
`page_index(wb_page)`, and the byte range `wb_offset`/`wb_bytes` within the
page. -/
structure NPage where
  wb_file : Nat
  pageIdx : Nat
  wb_offset : Nat
  wb_bytes : Nat
  deriving DecidableEq, Repr

/-- The tail-to-head walk of `nfs_list_add_request` (write.c:414-420), on the
reversed list: step over every trailing element whose page index is not below
the new request's, and place the request just after the first element (from
the tail) whose page index is smaller. -/
def insertFromTail (req : NPage) : List NPage → List NPage
  | [] => [req]
  | p :: rest =>
    if p.pageIdx < req.pageIdx then req :: p :: rest
    else p :: insertFromTail req rest

/-- `nfs_list_add_request` (write.c:399-423): insert `req` into the sorted
list after the last element whose page index is below `req`'s.  The busy /
hashed / already-on-a-list guards act on link state and are modelled in the
membership machine further down; here we model the insertion position. -/
def nfs_list_add_request (req : NPage) (l : List NPage) : List NPage :=
  (insertFromTail req l.reverse).reverse

/-- Break test of `coalesce_requests` (write.c:846-855) applied to a
non-first request against the previous one: a different file, a
non-contiguous page index, or a non-zero starting offset each end the batch
before `req` joins it. -/
def coalesceBreak (prev req : NPage) : Bool :=
  req.wb_file != prev.wb_file || req.pageIdx != prev.pageIdx + 1 || req.wb_offset != 0

/-- Lift of `coalesceBreak` to the loop's `prev` pointer, which is NULL on
the first iteration. -/
def prevBreaks (prev : Option NPage) (req : NPage) : Bool :=
  match prev with
  | none => false
  | some p => coalesceBreak p req

/-- The loop of `coalesce_requests` (write.c:836-865): walk `src` from the
head; stop before a request that breaks the run; otherwise move the request
to `dst` and count it; stop after a request whose range does not reach the
end of its page, or once `maxpages` requests have been taken.  Returns the
destination list, the remaining source list, and the page count. -/
def coalesceAux (prev : Option NPage) (src dst : List NPage) (pages maxpages : Nat) :
    List NPage × List NPage × Nat :=
  match src with
  | [] => (dst, [], pages)
  | req :: rest =>
    if prevBreaks prev req then (dst, req :: rest, pages)
    else
      let dst' := nfs_list_add_request req dst
      let pages' := pages + 1
      if req.wb_offset + req.wb_bytes ≠ PAGE_CACHE_SIZE then (dst', rest, pages')
      else if maxpages ≤ pages' then (dst', rest, pages')
      else coalesceAux (some req) rest dst' pages' maxpages

/-- `coalesce_requests(src, dst, maxpages)` with an initially empty
destination list, as called from `nfs_flush_list` (write.c:1216). -/
def coalesce_requests (src : List NPage) (maxpages : Nat) :
    List NPage × List NPage × Nat :=
  coalesceAux none src [] 0 maxpages

/-- Relation holding between consecutive members of a coalesced batch: same
file, page index exactly one greater, and a page-aligned start. -/
def creq (a b : NPage) : Prop :=
  b.wb_file = a.wb_file ∧ b.pageIdx = a.pageIdx + 1 ∧ b.wb_offset = 0

/-- The region-update step of `nfs_update_request` (write.c:927-948) on a
locked dirty request for the same file and page: if the new range neither
overlaps nor abuts the recorded range (`offset > rqend || end < wb_offset`)
the caller gets EBUSY (`none`); otherwise the record is widened in place,
first pulling `wb_offset` down to `offset` (recomputing `wb_bytes` against
the old end), then extending `wb_bytes` when the new end lies past the old
one.  The identity guards (`wb_file`, `wb_page`, dirty-list membership) are
the hypothesis that the record found is the caller's own dirty record. -/
def nfs_update_request (wb_offset wb_bytes offset bytes : Nat) : Option (Nat × Nat) :=
  let e := offset + bytes
  let rqend := wb_offset + wb_bytes
  if offset > rqend ∨ e < wb_offset then none
  else
    let o := if offset < wb_offset then offset else wb_offset
    let b1 := if offset < wb_offset then rqend - offset else wb_bytes
    let b2 := if e > rqend then e - o else b1
    some (o, b2)

/-- The retry loop of `nfs_writepage_sync` (write.c:198-225), with the RPC
modelled as an oracle giving each call's return value.  Each round shrinks
the chunk size to the remaining count when that is smaller (the shrunken
`wsize` persists), stops with the error on a negative result, and otherwise
accumulates the chunk into `written` and loops while `count` is non-zero.
The fuel returns `none` when the loop has not exited within that many
rounds (the C code with `wsize = 0` and `count > 0` never exits). -/
def syncLoop (rpc : Nat → Int) : Nat → Nat → Nat → Nat → Nat → Option (Nat × Int)
  | 0, _, _, _, _ => none
  | fuel + 1, idx, wsize, count, written =>
    let wsize' := if count < wsize then count else wsize
    let result := rpc idx
    if result < 0 then some (written, result)
    else
      let written' := written + wsize'
      let count' := count - wsize'
      if count' = 0 then some (written', result)
      else syncLoop rpc fuel (idx + 1) wsize' count' written'

/-- `nfs_writepage_sync` (write.c:181-254): run the chunk loop and return
`written ? written : result` — the byte count when anything was written,
else the last RPC status. -/
def nfs_writepage_sync (rpc : Nat → Int) (wsize count : Nat) : Option Int :=
  match syncLoop rpc (count + 1) 0 wsize count 0 with
  | none => none
  | some (written, result) => some (if written ≠ 0 then (written : Int) else result)

/-- The byte counter of the sync-write loop never decreases. -/
lemma syncLoop_mono (rpc : Nat → Int) :
    ∀ (fuel idx wsize count written w : Nat) (res : Int),
      syncLoop rpc fuel idx wsize count written = some (w, res) → written ≤ w := by
  intro fuel
  induction fuel with
  | zero => intro idx wsize count written w res h; simp [syncLoop] at h
  | succ fuel ih =>
    intro idx wsize count written w res h
    simp only [syncLoop] at h
    by_cases h1 : rpc idx < 0
    · rw [if_pos h1] at h
      simp only [Option.some.injEq, Prod.mk.injEq] at h
      omega
    · rw [if_neg h1] at h
      by_cases h2 : count - (if count < wsize then count else wsize) = 0
      · rw [if_pos h2] at h
        simp only [Option.some.injEq, Prod.mk.injEq] at h
        omega
      · rw [if_neg h2] at h
        have := ih _ _ _ _ _ _ h
        omega

/-- With a positive write size the chunk loop exits within `count + 1`
rounds. -/
lemma syncLoop_terminates (rpc : Nat → Int) :
    ∀ (fuel count idx wsize written : Nat), 1 ≤ wsize → count < fuel →
      syncLoop rpc fuel idx wsize count written ≠ none := by
  intro fuel
  induction fuel with
  | zero => intro count idx wsize written _ h; omega
  | succ fuel ih =>
    intro count idx wsize written hw hc
    simp only [syncLoop]
    by_cases h1 : rpc idx < 0
    · simp [h1]
    · rw [if_neg h1]
      by_cases hcw : count < wsize
      · simp [hcw]
      · simp only [if_neg hcw]
        by_cases h2 : count - wsize = 0
        · simp [h2]
        · rw [if_neg h2]
          exact ih (count - wsize) (idx + 1) wsize (written + wsize) hw (by omega)

/-- A first successful chunk makes the byte counter positive ever after. -/
lemma syncLoop_pos (rpc : Nat → Int) (fuel idx wsize count written w : Nat) (res : Int)
    (hw : 1 ≤ wsize) (hc : 1 ≤ count) (hr : 0 ≤ rpc idx)
    (h : syncLoop rpc (fuel + 1) idx wsize count written = some (w, res)) :
    written + 1 ≤ w := by
  simp only [syncLoop] at h
  rw [if_neg (by omega)] at h
  by_cases hcw : count < wsize
  · rw [if_pos hcw] at h
    rw [Nat.sub_self, if_pos rfl] at h
    simp only [Option.some.injEq, Prod.mk.injEq] at h
    omega
  · simp only [if_neg hcw] at h
    by_cases h2 : count - wsize = 0
    · rw [if_pos h2] at h
      simp only [Option.some.injEq, Prod.mk.injEq] at h
      omega
    · rw [if_neg h2] at h
      have := syncLoop_mono rpc _ _ _ _ _ _ _ h
      omega

/-- When the new request's page index is above everything already in the
list, the sorted insertion of `nfs_list_add_request` appends at the tail. -/
lemma nfs_list_add_request_append (req : NPage) (l : List NPage)
    (h : ∀ y ∈ l, y.pageIdx < req.pageIdx) :
    nfs_list_add_request req l = l ++ [req] := by
  induction l using List.reverseRecOn with
  | nil => simp [nfs_list_add_request, insertFromTail]
  | append_singleton l x _ =>
    have hx : x.pageIdx < req.pageIdx := h x (by simp)
    simp [nfs_list_add_request, insertFromTail, hx]

/-- Main loop invariant of `coalesce_requests`: the loop moves a prefix of
the source to the destination in order, every adjacent pair of the
destination satisfies `creq` (same file, contiguous pages, aligned starts),
and the page count respects `maxpages` whenever it did on entry. -/
lemma coalesceAux_spec (src : List NPage) :
    ∀ (prev : Option NPage) (dst : List NPage) (pages maxpages : Nat),
      List.Chain' creq dst →
      (∀ p, prev = some p → dst.getLast? = some p ∧ ∀ y ∈ dst, y.pageIdx ≤ p.pageIdx) →
      (prev = none → dst = []) →
      ∃ k, coalesceAux prev src dst pages maxpages
              = (dst ++ src.take k, src.drop k, pages + k) ∧
        List.Chain' creq (dst ++ src.take k) ∧
        (pages < maxpages → pages + k ≤ maxpages) := by
  induction src with
  | nil =>
    intro prev dst pages maxpages hch _ _
    exact ⟨0, by simp [coalesceAux], by simpa using hch, fun h => Nat.le_of_lt h⟩
  | cons req rest ih =>
    intro prev dst pages maxpages hch hprev hnone
    by_cases hbr : prevBreaks prev req = true
    · exact ⟨0, by simp [coalesceAux, hbr], by simpa using hch, fun h => Nat.le_of_lt h⟩
    · have hbarr : ∀ p, prev = some p →
          req.wb_file = p.wb_file ∧ req.pageIdx = p.pageIdx + 1 ∧ req.wb_offset = 0 := by
        intro p hp
        rw [hp] at hbr
        simpa [prevBreaks, coalesceBreak, not_or, and_assoc] using hbr
      have hlt : ∀ y ∈ dst, y.pageIdx < req.pageIdx := by
        intro y hy
        cases prev with
        | none => rw [hnone rfl] at hy; simp at hy
        | some p =>
          have h1 := (hprev p rfl).2 y hy
          have h2 := (hbarr p rfl).2.1
          omega
      have hadd : nfs_list_add_request req dst = dst ++ [req] :=
        nfs_list_add_request_append req dst hlt
      have hchain : List.Chain' creq (dst ++ [req]) := by
        rw [List.chain'_append]
        refine ⟨hch, by simp, ?_⟩
        intro x hx y hy
        simp only [List.head?_cons, Option.mem_def, Option.some.injEq] at hy
        subst hy
        cases prev with
        | none => rw [hnone rfl] at hx; simp at hx
        | some p =>
          rw [(hprev p rfl).1] at hx
          simp only [Option.mem_def, Option.some.injEq] at hx
          subst hx
          exact ⟨(hbarr p rfl).1, (hbarr p rfl).2.1, (hbarr p rfl).2.2⟩
      by_cases hpart : req.wb_offset + req.wb_bytes = PAGE_CACHE_SIZE
      · by_cases hmax : maxpages ≤ pages + 1
        · refine ⟨1, ?_, by simpa using hchain, by omega⟩
          simp [coalesceAux, hbr, hpart, hmax, hadd]
        · have hp2 : ∀ p, some req = some p →
              (dst ++ [req]).getLast? = some p ∧ ∀ y ∈ dst ++ [req], y.pageIdx ≤ p.pageIdx := by
            intro p hp
            injection hp with hp
            subst hp
            refine ⟨by simp [List.getLast?_append_cons], ?_⟩
            intro y hy
            rcases List.mem_append.mp hy with hy' | hy'
            · exact Nat.le_of_lt (hlt y hy')
            · simp only [List.mem_singleton] at hy'; subst hy'; exact Nat.le_refl _
          obtain ⟨k', heq, hch2, hbd⟩ :=
            ih (some req) (dst ++ [req]) (pages + 1) maxpages hchain hp2 (by simp)
          refine ⟨k' + 1, ?_, ?_, ?_⟩
          · have hstep : coalesceAux prev (req :: rest) dst pages maxpages
                = coalesceAux (some req) rest (dst ++ [req]) (pages + 1) maxpages := by
              simp [coalesceAux, hbr, hpart, hmax, hadd]
            rw [hstep, heq]
            simp only [List.take_succ_cons, List.drop_succ_cons, List.append_assoc,
              List.cons_append, List.nil_append, Prod.mk.injEq]
            exact ⟨trivial, trivial, by omega⟩
          · simpa [List.append_assoc] using hch2
          · intro h
            have := hbd (by omega)
            omega
      · refine ⟨1, ?_, by simpa using hchain, by omega⟩
        simp [coalesceAux, hbr, hpart, hadd]

/-- The break test succeeds exactly when the run relation holds. -/
lemma coalesceBreak_eq_false (p r : NPage) :
    coalesceBreak p r = false ↔ creq p r := by
  simp [coalesceBreak, creq, not_or, and_assoc]

/-- Page count of the coalescing loop on a contiguous full-page run: the
loop consumes requests until the source or the page budget runs out. -/
lemma coalesceAux_count_full (src : List NPage) :
    ∀ (prev : Option NPage) (dst : List NPage) (pages maxpages : Nat),
      pages < maxpages →
      (∀ r, src.head? = some r → prevBreaks prev r = false) →
      List.Chain' creq src →
      (∀ r ∈ src, r.wb_offset + r.wb_bytes = PAGE_CACHE_SIZE) →
      (coalesceAux prev src dst pages maxpages).2.2
          = pages + min (maxpages - pages) src.length := by
  induction src with
  | nil =>
    intro prev dst pages maxpages _ _ _ _
    simp [coalesceAux]
  | cons req rest ih =>
    intro prev dst pages maxpages hlt hnb hch hfull
    have hbr : prevBreaks prev req = false := hnb req rfl
    have hfq : req.wb_offset + req.wb_bytes = PAGE_CACHE_SIZE := hfull req (by simp)
    by_cases hmax : maxpages ≤ pages + 1
    · simp only [coalesceAux, hbr, Bool.false_eq_true, if_false, hfq,
        ne_eq, not_true_eq_false, if_pos hmax]
      simp only [List.length_cons]
      omega
    · have hstep : (coalesceAux prev (req :: rest) dst pages maxpages).2.2
          = (coalesceAux (some req) rest (nfs_list_add_request req dst)
              (pages + 1) maxpages).2.2 := by
        simp [coalesceAux, hbr, hfq, hmax]
      rw [hstep, ih (some req) _ (pages + 1) maxpages (by omega) ?_ hch.tail ?_]
      · simp only [List.length_cons]
        omega
      · intro r hr
        cases rest with
        | nil => simp at hr
        | cons b l =>
          simp only [List.head?_cons, Option.some.injEq] at hr
          subst hr
          exact (coalesceBreak_eq_false req b).mpr (List.chain'_cons.mp hch).1
      · intro r hr
        exact hfull r (List.mem_cons_of_mem req hr)

/-- In a `creq`-chained list every element after the first starts at
offset zero. -/
lemma chain'_tail_offset (l : List NPage) (h : List.Chain' creq l) :
    ∀ y ∈ l.tail, y.wb_offset = 0 := by
  induction l with
  | nil => simp
  | cons a l ih =>
    intro y hy
    simp only [List.tail_cons] at hy
    cases l with
    | nil => simp at hy
    | cons b l' =>
      rw [List.chain'_cons] at h
      rcases List.mem_cons.mp hy with rfl | hy'
      · exact h.1.2.2
      · exact ih h.2 y hy'

/-- C1 (amended: `maxpages ≥ 1`): one call of `coalesce_requests` takes an
in-order prefix of the dirty list as the batch, consecutive batch members
are on the same file with page indices that differ by exactly one (so the
batch never spans a gap and never reorders pages), and the batch size never
exceeds `maxpages`. -/
theorem coalesce_batch_runs (src : List NPage) (maxpages : Nat) (h : 1 ≤ maxpages) :
    ∃ k, coalesce_requests src maxpages = (src.take k, src.drop k, k) ∧
      List.Chain' creq (src.take k) ∧ k ≤ maxpages ∧
      (List.Chain' creq src → (∀ r ∈ src, r.wb_offset + r.wb_bytes = PAGE_CACHE_SIZE) →
        k = min maxpages src.length) := by
  obtain ⟨k, heq, hch, hbd⟩ :=
    coalesceAux_spec src none [] 0 maxpages (by simp) (by simp) (fun _ => rfl)
  refine ⟨k, by simpa [coalesce_requests] using heq, by simpa using hch, by
    have := hbd (by omega); omega, ?_⟩
  intro hsrc hfull
  have hcnt := coalesceAux_count_full src none [] 0 maxpages (by omega)
    (fun r _ => rfl) hsrc hfull
  rw [heq] at hcnt
  simpa using hcnt

/-- Witness for `coalesce_batch_runs` at a concrete two-page dirty list. -/
theorem coalesce_batch_runs_w :
    ∃ k, coalesce_requests [⟨0, 0, 0, 4096⟩, ⟨0, 1, 0, 4096⟩] 8
        = (List.take k [⟨0, 0, 0, 4096⟩, ⟨0, 1, 0, 4096⟩],
           List.drop k [⟨0, 0, 0, 4096⟩, ⟨0, 1, 0, 4096⟩], k) ∧
      List.Chain' creq (List.take k [⟨0, 0, 0, 4096⟩, ⟨0, 1, 0, 4096⟩]) ∧ k ≤ 8 ∧
      (List.Chain' creq [⟨0, 0, 0, 4096⟩, ⟨0, 1, 0, 4096⟩] →
        (∀ r ∈ [(⟨0, 0, 0, 4096⟩ : NPage), ⟨0, 1, 0, 4096⟩],
          r.wb_offset + r.wb_bytes = PAGE_CACHE_SIZE) →
        k = min 8 (List.length [(⟨0, 0, 0, 4096⟩ : NPage), ⟨0, 1, 0, 4096⟩])) :=
  coalesce_batch_runs [⟨0, 0, 0, 4096⟩, ⟨0, 1, 0, 4096⟩] 8 (by decide)

/-- C1 counterexample: with `maxpages = 0` the code still takes one request
into the batch before testing the bound, so the batch size exceeds
`maxpages`. -/
theorem coalesce_maxpages_zero_cex :
    (coalesce_requests [⟨0, 0, 0, PAGE_CACHE_SIZE⟩] 0).2.2 = 1 ∧
    ¬ (coalesce_requests [⟨0, 0, 0, PAGE_CACHE_SIZE⟩] 0).2.2 ≤ 0 := by
  decide

/-- C5 (amended): a request with a non-zero starting offset is never added
to a batch as a non-first member (the previous-request test breaks the
batch before it), and a first request whose range does not extend to the
end of its page is the only member of its batch. -/
theorem coalesce_nonzero_offset (src : List NPage) (maxpages : Nat) :
    (∀ y ∈ (coalesce_requests src maxpages).1.tail, y.wb_offset = 0) ∧
    (∀ r rest, src = r :: rest → r.wb_offset + r.wb_bytes ≠ PAGE_CACHE_SIZE →
      (coalesce_requests src maxpages).1 = [r]) := by
  constructor
  · obtain ⟨k, heq, hch, _⟩ :=
      coalesceAux_spec src none [] 0 maxpages (by simp) (by simp) (fun _ => rfl)
    intro y hy
    rw [coalesce_requests, heq] at hy
    exact chain'_tail_offset _ (by simpa using hch) y (by simpa using hy)
  · intro r rest hsrc hpart
    subst hsrc
    simp [coalesce_requests, coalesceAux, prevBreaks, hpart,
      nfs_list_add_request, insertFromTail]

/-- Witness for `coalesce_nonzero_offset`: a partial first page ends the
batch immediately after its inclusion. -/
theorem coalesce_nonzero_offset_w :
    (coalesce_requests [⟨0, 0, 0, 100⟩, ⟨0, 1, 0, 4096⟩] 8).1 = [⟨0, 0, 0, 100⟩] :=
  (coalesce_nonzero_offset [⟨0, 0, 0, 100⟩, ⟨0, 1, 0, 4096⟩] 8).2
    ⟨0, 0, 0, 100⟩ [⟨0, 1, 0, 4096⟩] rfl (by decide)

/-- C5 counterexample: a first request starting at offset 100 whose range
reaches the end of its page does not terminate the batch after inclusion —
the following full page is coalesced behind it, so the non-zero-offset
request is not the last member of its batch. -/
theorem coalesce_nonzero_offset_cex :
    (coalesce_requests [⟨0, 0, 100, 3996⟩, ⟨0, 1, 0, 4096⟩] 10).1
        = [⟨0, 0, 100, 3996⟩, ⟨0, 1, 0, 4096⟩] ∧
    (⟨0, 0, 100, 3996⟩ : NPage).wb_offset ≠ 0 ∧
    (coalesce_requests [⟨0, 0, 100, 3996⟩, ⟨0, 1, 0, 4096⟩] 10).1.getLast?
        ≠ some ⟨0, 0, 100, 3996⟩ := by
  decide

/-- Closed form of the widening step under the overlap-or-abut guard. -/
lemma nfs_update_request_eq (wb_offset wb_bytes offset bytes : Nat)
    (h1 : offset ≤ wb_offset + wb_bytes) (h2 : wb_offset ≤ offset + bytes) :
    nfs_update_request wb_offset wb_bytes offset bytes
        = some (min offset wb_offset,
            max (offset + bytes) (wb_offset + wb_bytes) - min offset wb_offset) := by
  simp only [nfs_update_request]
  rw [if_neg (by omega)]
  simp only [Option.some.injEq, Prod.mk.injEq]
  split_ifs <;> omega

/-- C7: on an overlapping or abutting write to the same page's dirty record,
`nfs_update_request` widens the single record in place to the union of the
two ranges — the offset becomes the minimum of the two starts and the end
the maximum of the two ends — and repeating the same write leaves the
record unchanged (one record, same span, not two). -/
theorem nfs_update_request_union (wb_offset wb_bytes offset bytes : Nat)
    (h1 : offset ≤ wb_offset + wb_bytes) (h2 : wb_offset ≤ offset + bytes) :
    nfs_update_request wb_offset wb_bytes offset bytes
        = some (min offset wb_offset,
            max (offset + bytes) (wb_offset + wb_bytes) - min offset wb_offset) ∧
    nfs_update_request (min offset wb_offset)
        (max (offset + bytes) (wb_offset + wb_bytes) - min offset wb_offset) offset bytes
        = some (min offset wb_offset,
            max (offset + bytes) (wb_offset + wb_bytes) - min offset wb_offset) := by
  refine ⟨nfs_update_request_eq _ _ _ _ h1 h2, ?_⟩
  rw [nfs_update_request_eq _ _ _ _ (by omega) (by omega)]
  simp only [Option.some.injEq, Prod.mk.injEq]
  omega

/-- Witness for `nfs_update_request_union`: the record `[20, 50)` widened by
a write of `[10, 30)`. -/
theorem nfs_update_request_union_w :
    nfs_update_request 20 30 10 20
        = some (min 10 20, max (10 + 20) (20 + 30) - min 10 20) ∧
    nfs_update_request (min 10 20) (max (10 + 20) (20 + 30) - min 10 20) 10 20
        = some (min 10 20, max (10 + 20) (20 + 30) - min 10 20) :=
  nfs_update_request_union 20 30 10 20 (by decide) (by decide)

/-- C10: with a positive write size the sync-write loop terminates, and
`nfs_writepage_sync` returns the positive byte count whenever anything was
written (even if a later chunk failed), returns a negative value only when
no bytes at all were written, and writes at least one byte whenever the
first RPC call succeeds on a non-empty range. -/
theorem nfs_writepage_sync_partial (rpc : Nat → Int) (wsize count : Nat)
    (h1 : 1 ≤ wsize) :
    ∃ w res, syncLoop rpc (count + 1) 0 wsize count 0 = some (w, res) ∧
      nfs_writepage_sync rpc wsize count = some (if w ≠ 0 then (w : Int) else res) ∧
      (0 < w → nfs_writepage_sync rpc wsize count = some (w : Int) ∧ 0 < (w : Int)) ∧
      (∀ r : Int, nfs_writepage_sync rpc wsize count = some r → r < 0 → w = 0 ∧ r = res) ∧
      (1 ≤ count → 0 ≤ rpc 0 → 0 < w) := by
  have hterm := syncLoop_terminates rpc (count + 1) count 0 wsize 0 h1 (by omega)
  obtain ⟨⟨w, res⟩, hres⟩ := Option.ne_none_iff_exists'.mp hterm
  refine ⟨w, res, hres, ?_, ?_, ?_, ?_⟩
  · simp [nfs_writepage_sync, hres]
  · intro hw
    constructor
    · have hw' : w ≠ 0 := by omega
      simp [nfs_writepage_sync, hres, hw']
    · exact_mod_cast hw
  · intro r hr hneg
    by_cases hw : w = 0
    · subst hw
      simp [nfs_writepage_sync, hres] at hr
      exact ⟨rfl, hr.symm⟩
    · simp [nfs_writepage_sync, hres, hw] at hr
      omega
  · intro hc hr
    have := syncLoop_pos rpc count 0 wsize count 0 w res h1 hc hr hres
    omega

/-- Witness for `nfs_writepage_sync_partial`: two 4096-byte chunks where the
first RPC succeeds and the second fails with -5; the call returns 4096. -/
theorem nfs_writepage_sync_partial_w :
    ∃ w res,
      syncLoop (fun i => if i = 0 then 4096 else -5) (8192 + 1) 0 4096 8192 0
          = some (w, res) ∧
      nfs_writepage_sync (fun i => if i = 0 then 4096 else -5) 4096 8192
          = some (if w ≠ 0 then (w : Int) else res) ∧
      (0 < w → nfs_writepage_sync (fun i => if i = 0 then 4096 else -5) 4096 8192
          = some (w : Int) ∧ 0 < (w : Int)) ∧
      (∀ r : Int, nfs_writepage_sync (fun i => if i = 0 then 4096 else -5) 4096 8192
          = some r → r < 0 → w = 0 ∧ r = res) ∧
      (1 ≤ 8192 → 0 ≤ (if (0 : Nat) = 0 then (4096 : Int) else -5) → 0 < w) :=
  nfs_writepage_sync_partial (fun i => if i = 0 then 4096 else -5) 4096 8192 (by decide)

/-- The NFSv3 `stable_how` value for provisional (unstable) acceptance. -/
def NFS_UNSTABLE : Nat := 0

/-- The fields of `struct nfs_page` the completion handlers inspect: an
identity, the owning file and the stored commit verifier (`wb_verf`,
compared by `memcmp`, here by equality of an opaque value). -/
structure WReq where
  rid : Nat
  wb_file : Nat
  wb_verf : Nat
  deriving DecidableEq, Repr

/-- What `nfs_writeback_done` does to one request: `removed` stands for
`nfs_inode_remove_request` (unhash from the per-file index and release),
`markedCommit` for storing the server's verifier and moving the request to
the pending-commit list via `nfs_mark_request_commit`. -/
inductive WbDisp where
  | removed
  | markedCommit (verf : Nat)
  deriving DecidableEq, Repr

/-- What `nfs_commit_done` does to one request: `removed` as above,
`redirtied` for `nfs_mark_request_dirty` (back onto the dirty list). -/
inductive CDisp where
  | removed
  | redirtied
  deriving DecidableEq, Repr

/-- The short-write check of `nfs_writeback_done` (write.c:1252-1262): a
non-negative status with fewer bytes written than requested is turned into
-EIO before the per-request loop runs. -/
def wbEffStatus (tkStatus : Int) (respCount argCount : Nat) : Int :=
  if respCount < argCount ∧ 0 ≤ tkStatus then -5 else tkStatus

/-- `req->wb_file->f_error = status`: per-file error store update. -/
def setErr (errs : Nat → Int) (fileId : Nat) (e : Int) : Nat → Int :=
  fun x => if x = fileId then e else errs x

/-- One iteration of the request loop of `nfs_writeback_done`
(write.c:1285-1319): a failed call stores the error on the owning file and
unhashes the request; a durable reply unhashes it; an unstable reply stores
the verifier and marks the request for commit.  Every path unlocks the
request (the `next:` label). -/
def wbStep (st : Int) (committed serverVerf : Nat)
    (acc : (Nat → Int) × List (WReq × WbDisp × Bool)) (req : WReq) :
    (Nat → Int) × List (WReq × WbDisp × Bool) :=
  if st < 0 then (setErr acc.1 req.wb_file st, acc.2 ++ [(req, WbDisp.removed, true)])
  else if committed ≠ NFS_UNSTABLE then (acc.1, acc.2 ++ [(req, WbDisp.removed, true)])
  else (acc.1, acc.2 ++ [(req, WbDisp.markedCommit serverVerf, true)])

/-- `nfs_writeback_done` (write.c:1238-1321) acting on the per-file error
store and the batch (`data->pages`), yielding the updated error store and
each request's disposition and unlock flag. -/
def nfs_writeback_done (tkStatus : Int) (respCount argCount committed serverVerf : Nat)
    (errs : Nat → Int) (batch : List WReq) :
    (Nat → Int) × List (WReq × WbDisp × Bool) :=
  batch.foldl (wbStep (wbEffStatus tkStatus respCount argCount) committed serverVerf) (errs, [])

/-- One iteration of the request loop of `nfs_commit_done`
(write.c:1439-1468): a failed call stores the error and unhashes; a
matching verifier unhashes (durable); a mismatch re-marks the request
dirty.  Every path unlocks the request. -/
def cStep (status : Int) (serverVerf : Nat)
    (acc : (Nat → Int) × List (WReq × CDisp × Bool)) (req : WReq) :
    (Nat → Int) × List (WReq × CDisp × Bool) :=
  if status < 0 then (setErr acc.1 req.wb_file status, acc.2 ++ [(req, CDisp.removed, true)])
  else if req.wb_verf = serverVerf then (acc.1, acc.2 ++ [(req, CDisp.removed, true)])
  else (acc.1, acc.2 ++ [(req, CDisp.redirtied, true)])

/-- `nfs_commit_done` (write.c:1426-1470) acting on the per-file error
store and the committed batch. -/
def nfs_commit_done (status : Int) (serverVerf : Nat)
    (errs : Nat → Int) (batch : List WReq) :
    (Nat → Int) × List (WReq × CDisp × Bool) :=
  batch.foldl (cStep status serverVerf) (errs, [])

/-- Closed form of the writeback loop on a failed call: the error store is
set to the status on every batch file and every request is unhashed and
unlocked. -/
lemma wb_fold_neg (st : Int) (committed serverVerf : Nat) (h : st < 0) :
    ∀ (batch : List WReq) (errs : Nat → Int) (acc : List (WReq × WbDisp × Bool)),
      (batch.foldl (wbStep st committed serverVerf) (errs, acc)).2
          = acc ++ batch.map (fun r => (r, WbDisp.removed, true)) ∧
      ∀ x, (batch.foldl (wbStep st committed serverVerf) (errs, acc)).1 x
          = if x ∈ batch.map WReq.wb_file then st else errs x := by
  intro batch
  induction batch with
  | nil => intro errs acc; simp
  | cons r rest ih =>
    intro errs acc
    simp only [List.foldl_cons, wbStep, if_pos h]
    refine ⟨?_, ?_⟩
    · rw [(ih (setErr errs r.wb_file st) (acc ++ [(r, WbDisp.removed, true)])).1]
      simp
    intro x
    rw [(ih _ _).2 x]
    by_cases hx1 : x ∈ rest.map WReq.wb_file <;>
      by_cases hx2 : x = r.wb_file <;>
        simp [hx1, hx2, setErr]

/-- Closed form of the commit loop on a failed call. -/
lemma c_fold_neg (status : Int) (serverVerf : Nat) (h : status < 0) :
    ∀ (batch : List WReq) (errs : Nat → Int) (acc : List (WReq × CDisp × Bool)),
      (batch.foldl (cStep status serverVerf) (errs, acc)).2
          = acc ++ batch.map (fun r => (r, CDisp.removed, true)) ∧
      ∀ x, (batch.foldl (cStep status serverVerf) (errs, acc)).1 x
          = if x ∈ batch.map WReq.wb_file then status else errs x := by
  intro batch
  induction batch with
  | nil => intro errs acc; simp
  | cons r rest ih =>
    intro errs acc
    simp only [List.foldl_cons, cStep, if_pos h]
    refine ⟨?_, ?_⟩
    · rw [(ih (setErr errs r.wb_file status) (acc ++ [(r, CDisp.removed, true)])).1]
      simp
    intro x
    rw [(ih _ _).2 x]
    by_cases hx1 : x ∈ rest.map WReq.wb_file <;>
      by_cases hx2 : x = r.wb_file <;>
        simp [hx1, hx2, setErr]

/-- Closed form of the commit loop on a successful call: the error store is
untouched and each request is removed on a verifier match, re-dirtied on a
mismatch, and unlocked either way. -/
lemma c_fold_nonneg (status : Int) (serverVerf : Nat) (h : 0 ≤ status) :
    ∀ (batch : List WReq) (errs : Nat → Int) (acc : List (WReq × CDisp × Bool)),
      batch.foldl (cStep status serverVerf) (errs, acc)
          = (errs, acc ++ batch.map (fun r =>
              (r, (if r.wb_verf = serverVerf then CDisp.removed else CDisp.redirtied), true))) := by
  intro batch
  induction batch with
  | nil => intro errs acc; simp
  | cons r rest ih =>
    intro errs acc
    simp only [List.foldl_cons, cStep, if_neg (by omega : ¬ status < 0)]
    by_cases hv : r.wb_verf = serverVerf <;> simp [hv, ih]

/-- C2 counterexample: a batch dispatched for file 7 whose write call fails
with status -5.  The completion handler unhashes the request from the
per-file index (`WbDisp.removed`), contradicting the claim that no record
of a failed batch is removed and that every record returns to the dirty
list. -/
theorem nfs_writeback_fail_removed_cex :
    (nfs_writeback_done (-5) 0 0 NFS_UNSTABLE 0 (fun _ => 0) [⟨1, 7, 0⟩]).2
        = [(⟨1, 7, 0⟩, WbDisp.removed, true)] ∧
    (nfs_writeback_done (-5) 0 0 NFS_UNSTABLE 0 (fun _ => 0) [⟨1, 7, 0⟩]).1 7 = -5 := by
  constructor <;> rfl

/-- C2 (amended): when the dispatched write call fails outright, the
completion handler records the error on each owning file (overwriting any
stored error) and removes every record of the batch from the per-file
index, unlocking each; failed records are not returned to the dirty list. -/
theorem nfs_writeback_done_error (tkStatus : Int)
    (respCount argCount committed serverVerf : Nat)
    (errs : Nat → Int) (batch : List WReq)
    (h : wbEffStatus tkStatus respCount argCount < 0) :
    (nfs_writeback_done tkStatus respCount argCount committed serverVerf errs batch).2
        = batch.map (fun r => (r, WbDisp.removed, true)) ∧
    ∀ r ∈ batch,
      (nfs_writeback_done tkStatus respCount argCount committed serverVerf errs batch).1
          r.wb_file = wbEffStatus tkStatus respCount argCount := by
  obtain ⟨hl, he⟩ := wb_fold_neg (wbEffStatus tkStatus respCount argCount) committed
    serverVerf h batch errs []
  refine ⟨by simpa [nfs_writeback_done] using hl, ?_⟩
  intro r hr
  rw [nfs_writeback_done, he r.wb_file,
    if_pos (List.mem_map_of_mem WReq.wb_file hr)]

/-- Witness for `nfs_writeback_done_error` on a one-record batch for file 7
failing with -5. -/
theorem nfs_writeback_done_error_w :
    (nfs_writeback_done (-5) 0 0 2 0 (fun _ => 0) [⟨1, 7, 0⟩]).2
        = [⟨1, 7, 0⟩].map (fun r => (r, WbDisp.removed, true)) ∧
    ∀ r ∈ [(⟨1, 7, 0⟩ : WReq)],
      (nfs_writeback_done (-5) 0 0 2 0 (fun _ => 0) [⟨1, 7, 0⟩]).1 r.wb_file
          = wbEffStatus (-5) 0 0 :=
  nfs_writeback_done_error (-5) 0 0 2 0 (fun _ => 0) [⟨1, 7, 0⟩] (by decide)

/-- C3: on a successful commit call, every record whose stored verifier
matches the server's is removed from the per-file index and released, every
record with a differing verifier is re-marked dirty for a full rewrite, and
every record is unlocked; the per-file error store is untouched. -/
theorem nfs_commit_done_verifier (status : Int) (serverVerf : Nat)
    (errs : Nat → Int) (batch : List WReq) (h : 0 ≤ status) :
    nfs_commit_done status serverVerf errs batch
        = (errs, batch.map (fun r =>
            (r, (if r.wb_verf = serverVerf then CDisp.removed else CDisp.redirtied),
             true))) := by
  rw [nfs_commit_done, c_fold_nonneg status serverVerf h batch errs []]
  simp

/-- Witness for `nfs_commit_done_verifier`: verifier 42 matches the first
record and mismatches the second. -/
theorem nfs_commit_done_verifier_w :
    nfs_commit_done 0 42 (fun _ => 0) [⟨1, 7, 42⟩, ⟨2, 7, 41⟩]
        = ((fun _ => 0),
           [(⟨1, 7, 42⟩, CDisp.removed, true), (⟨2, 7, 41⟩, CDisp.redirtied, true)]) := by
  have h := nfs_commit_done_verifier 0 42 (fun _ => 0) [⟨1, 7, 42⟩, ⟨2, 7, 41⟩] (by decide)
  simpa using h

/-- C6 counterexample: file 7 already holds sticky error -5 from a failed
writeback; a second failed completion with status -13 overwrites it, so the
stored error is the most recent failure, not the first. -/
theorem sticky_error_overwrite_cex :
    (nfs_writeback_done (-13) 0 0 NFS_UNSTABLE 0
        ((nfs_writeback_done (-5) 0 0 NFS_UNSTABLE 0 (fun _ => 0) [⟨1, 7, 0⟩]).1)
        [⟨2, 7, 0⟩]).1 7 = -13 ∧
    ((-13 : Int) ≠ -5) := by
  constructor
  · rfl
  · decide

/-- C6 (amended): each failing completion stores its own status in the
owning file's error slot unconditionally, so the error reported later is
the most recent failure's, and any previously stored error is discarded —
in both the write and the commit completion handlers. -/
theorem sticky_error_last_wins (tkStatus status : Int)
    (respCount argCount committed serverVerf sv2 : Nat)
    (errs errs2 : Nat → Int) (batch : List WReq) (r : WReq)
    (h1 : wbEffStatus tkStatus respCount argCount < 0) (h2 : status < 0)
    (hr : r ∈ batch) :
    (nfs_writeback_done tkStatus respCount argCount committed serverVerf errs batch).1
        r.wb_file = wbEffStatus tkStatus respCount argCount ∧
    (nfs_commit_done status sv2 errs2 batch).1 r.wb_file = status := by
  constructor
  · rw [nfs_writeback_done,
      (wb_fold_neg _ committed serverVerf h1 batch errs []).2 r.wb_file,
      if_pos (List.mem_map_of_mem WReq.wb_file hr)]
  · rw [nfs_commit_done,
      (c_fold_neg status sv2 h2 batch errs2 []).2 r.wb_file,
      if_pos (List.mem_map_of_mem WReq.wb_file hr)]

/-- Witness for `sticky_error_last_wins` with prior stored errors -7 and
-9 being overwritten. -/
theorem sticky_error_last_wins_w :
    (nfs_writeback_done (-13) 0 0 2 0 (fun _ => -7) [⟨1, 7, 0⟩]).1 7
        = wbEffStatus (-13) 0 0 ∧
    (nfs_commit_done (-13) 0 (fun _ => -9) [⟨1, 7, 0⟩]).1 7 = -13 :=
  sticky_error_last_wins (-13) (-13) 0 0 2 0 0 (fun _ => -7) (fun _ => -9)
    [⟨1, 7, 0⟩] ⟨1, 7, 0⟩ (by decide) (by decide) (by simp)

/-- The soft/hard-limit admission loop of `nfs_create_request`
(write.c:535-574), with one entry of the environment streams per iteration:
`counts i` is the value of `nfs_nr_requests` observed at iteration `i` (the
soft-limit flushing between sleeps only changes this value), `allocOk i`
says whether `nfs_page_alloc` would succeed, and `sig i` whether a signal
is pending after the interruptible sleep.  `intr` is the NFS_MOUNT_INTR
mount flag and `hard` is MAX_REQUEST_HARD.  `some (some i)` means the
request struct was allocated at iteration `i`; `some none` means the loop
broke with no request (the caller sees NULL, surfaced as -ENOMEM by
`nfs_update_request`); `none` means the loop is still running after `fuel`
bounded one-second sleeps have timed out. -/
def nfs_create_request_loop (hard : Nat) (counts : Nat → Nat) (allocOk sig : Nat → Bool)
    (intr : Bool) : Nat → Nat → Option (Option Nat)
  | 0, _ => none
  | fuel + 1, i =>
    if counts i < hard ∧ allocOk i = true then some (some i)
    else if intr = true ∧ sig i = true then some none
    else nfs_create_request_loop hard counts allocOk sig intr fuel (i + 1)

/-- C4 counterexample: with the global count pinned at the hard limit, no
signal pending and a non-interruptible mount, fifty consecutive timed-out
sleeps leave the caller still looping — no resource-exhaustion error
(`some none`) is ever surfaced by a timeout. -/
theorem create_request_timeout_cex :
    nfs_create_request_loop 1 (fun _ => 1) (fun _ => true) (fun _ => false) false 50 0
        = none ∧
    nfs_create_request_loop 1 (fun _ => 1) (fun _ => true) (fun _ => false) false 50 0
        ≠ some none := by
  constructor <;> decide

/-- C4 (amended): the hard-limit wait is a loop of bounded sleeps that
re-checks after every timeout and never surfaces an error because of a
timeout — allocation fails only when a signal interrupts the wait on an
interruptible mount, the loop runs forever while the limit stays saturated
on a non-interruptible mount, and allocation never succeeds at an iteration
where the count is at or above the hard limit. -/
theorem nfs_create_request_admission (hard : Nat) (counts : Nat → Nat)
    (allocOk sig : Nat → Bool) (intr : Bool) (fuel i : Nat) :
    (∀ j, nfs_create_request_loop hard counts allocOk sig intr fuel i = some (some j) →
        counts j < hard ∧ allocOk j = true) ∧
    (intr = false →
        nfs_create_request_loop hard counts allocOk sig intr fuel i ≠ some none) ∧
    ((∀ j, ¬ (counts j < hard ∧ allocOk j = true)) → intr = false →
        nfs_create_request_loop hard counts allocOk sig intr fuel i = none) := by
  induction fuel generalizing i with
  | zero =>
    refine ⟨?_, ?_, ?_⟩
    · intro j h; simp [nfs_create_request_loop] at h
    · intro _ h; simp [nfs_create_request_loop] at h
    · intro _ _; rfl
  | succ fuel ih =>
    by_cases h1 : counts i < hard ∧ allocOk i = true
    · refine ⟨?_, ?_, ?_⟩
      · intro j h
        simp only [nfs_create_request_loop, if_pos h1, Option.some.injEq] at h
        exact h ▸ h1
      · intro _ h
        simp only [nfs_create_request_loop, if_pos h1, Option.some.injEq] at h
        cases h
      · intro hall _
        exact absurd h1 (hall i)
    · by_cases h2 : intr = true ∧ sig i = true
      · refine ⟨?_, ?_, ?_⟩
        · intro j h
          simp only [nfs_create_request_loop, if_neg h1, if_pos h2,
            Option.some.injEq] at h
          cases h
        · intro hintr
          rw [hintr] at h2
          exact absurd h2.1 (by simp)
        · intro _ hintr
          rw [hintr] at h2
          exact absurd h2.1 (by simp)
      · have heq : nfs_create_request_loop hard counts allocOk sig intr (fuel + 1) i
            = nfs_create_request_loop hard counts allocOk sig intr fuel (i + 1) := by
          simp only [nfs_create_request_loop, if_neg h1, if_neg h2]
        exact ⟨fun j h => (ih (i + 1)).1 j (heq ▸ h),
          fun hintr => heq ▸ (ih (i + 1)).2.1 hintr,
          fun hall hintr => heq ▸ (ih (i + 1)).2.2 hall hintr⟩

/-- Witness for `nfs_create_request_admission`: count pinned at the limit
with allocation impossible on a non-interruptible mount never exits. -/
theorem nfs_create_request_admission_w :
    nfs_create_request_loop 1 (fun _ => 1) (fun _ => false) (fun _ => false) false 3 0
        = none :=
  (nfs_create_request_admission 1 (fun _ => 1) (fun _ => false) (fun _ => false)
      false 3 0).2.2 (fun j => by simp) rfl

/-- The busy flag and reference count of a request as touched by
`nfs_unlock_request` and `nfs_release_request`: `wb_busy` is the PG_BUSY
bit of `wb_flags` — the only flag bit this file defines. -/
structure PReq where
  wb_busy : Bool
  wb_count : Nat
  deriving DecidableEq, Repr

/-- `nfs_unlock_request` (write.c:507-517): on an unlocked request print an
error and return with nothing changed; otherwise clear PG_BUSY, wake the
waiters on `wb_wait`, and drop one reference (`nfs_release_request` frees
the request when the count reaches zero).  Returns the request state,
whether waiters were woken, and whether the request was freed. -/
def nfs_unlock_request (req : PReq) : PReq × Bool × Bool :=
  if req.wb_busy = false then (req, false, false)
  else
    let cleared : PReq := { req with wb_busy := false }
    let newCount := cleared.wb_count - 1
    ({ cleared with wb_count := newCount }, true, newCount == 0)

/-- C9: unlocking a request whose busy flag is already clear changes
nothing — the flag stays clear, no waiter is woken, the reference count is
not decremented, and the request is not freed. -/
theorem nfs_unlock_request_frame (req : PReq) (h : req.wb_busy = false) :
    nfs_unlock_request req = (req, false, false) := by
  simp [nfs_unlock_request, h]

/-- Witness for `nfs_unlock_request_frame` on an idle two-reference
request. -/
theorem nfs_unlock_request_frame_w :
    nfs_unlock_request ⟨false, 2⟩ = (⟨false, 2⟩, false, false) :=
  nfs_unlock_request_frame ⟨false, 2⟩ rfl

/-- The lists a request's `wb_list` link can be threaded on in write.c: the
inode's dirty list, its commit list, the scan destination handed to the
flush path, and the batch being assembled by the coalescer (the
`data->pages` list of a call takes its elements from the latter with the
same remove-and-add move pattern). -/
inductive Loc where
  | dirty
  | commit
  | xferA
  | xferB
  deriving DecidableEq, Repr

/-- The list state of one inode's requests, each request named by an
identity. -/
structure LState where
  dirty : List Nat
  commit : List Nat
  xferA : List Nat
  xferB : List Nat
  deriving Repr

/-- Read one of the four lists. -/
def LState.get (s : LState) : Loc → List Nat
  | .dirty => s.dirty
  | .commit => s.commit
  | .xferA => s.xferA
  | .xferB => s.xferB

/-- Replace one of the four lists. -/
def LState.set (s : LState) : Loc → List Nat → LState
  | .dirty, v => { s with dirty := v }
  | .commit, v => { s with commit := v }
  | .xferA, v => { s with xferA := v }
  | .xferB, v => { s with xferB := v }

/-- `!list_empty(&req->wb_list)`: the request's single link node is
threaded on some list. -/
def onAnyList (s : LState) (r : Nat) : Prop :=
  r ∈ s.dirty ∨ r ∈ s.commit ∨ r ∈ s.xferA ∨ r ∈ s.xferB

instance (s : LState) (r : Nat) : Decidable (onAnyList s r) := by
  unfold onAnyList
  infer_instance

/-- The membership effect of `nfs_list_add_request` (write.c:404-407) and
of the guarded adds in `nfs_mark_request_dirty`/`nfs_mark_request_commit`:
refuse to thread a request whose link is already on a list.  The in-list
position (page-sorted) does not affect membership and is studied with
`NPage` above. -/
def listAdd (s : LState) (l : Loc) (r : Nat) : LState :=
  if onAnyList s r then s else s.set l (r :: s.get l)

/-- `nfs_list_remove_request` (write.c:428-438): unthread the request's
link from whichever list holds it. -/
def listRemove (s : LState) (r : Nat) : LState :=
  ⟨s.dirty.filter (· != r), s.commit.filter (· != r),
   s.xferA.filter (· != r), s.xferB.filter (· != r)⟩

/-- One move of the scan / coalesce / rpcsetup pattern after a successful
`nfs_lock_request`: `nfs_list_remove_request(req)` followed by
`nfs_list_add_request(req, dst)`. -/
def moveOne (dst : Loc) (s : LState) (r : Nat) : LState :=
  listAdd (listRemove s r) dst r

/-- The write.c operations that touch the membership lists: the raw list
primitives, the guarded adds of `nfs_mark_request_dirty` and
`nfs_mark_request_commit`, the bulk move performed by `nfs_scan_list`,
`coalesce_requests` and the rpcsetup routines over the requests `pick`
selects (those whose lock is obtained, those passing the run tests), and
the completion handlers, which unthread every request of the in-flight
batch and then either leave it off all lists (`nfs_inode_remove_request`)
or re-mark it onto one list. -/
inductive WOp where
  | insert (l : Loc) (r : Nat)
  | remove (r : Nat)
  | markDirty (r : Nat)
  | markCommit (r : Nat)
  | transfer (src dst : Loc) (pick : Nat → Bool)
  | complete (outcome : Nat → Option Loc)

/-- Apply one membership operation. -/
def step : WOp → LState → LState
  | .insert l r, s => listAdd s l r
  | .remove r, s => listRemove s r
  | .markDirty r, s => listAdd s .dirty r
  | .markCommit r, s => listAdd s .commit r
  | .transfer src dst pick, s =>
      (s.get src).foldl (fun st r => if pick r then moveOne dst st r else st) s
  | .complete outcome, s =>
      (s.get .xferB).foldl (fun st r =>
        match outcome r with
        | none => listRemove st r
        | some l => moveOne l st r) s

/-- The single-membership invariant: a request is on at most one of the
lists — in particular on at most one of the dirty and commit lists. -/
def Inv (s : LState) : Prop :=
  (∀ r ∈ s.dirty, r ∉ s.commit ∧ r ∉ s.xferA ∧ r ∉ s.xferB) ∧
  (∀ r ∈ s.commit, r ∉ s.xferA ∧ r ∉ s.xferB) ∧
  (∀ r ∈ s.xferA, r ∉ s.xferB)

instance (s : LState) : Decidable (Inv s) := by
  unfold Inv
  infer_instance

/-- Pointwise, location-symmetric form of the invariant. -/
def InvP (s : LState) : Prop :=
  ∀ (x : Nat) (l1 l2 : Loc), l1 ≠ l2 → x ∈ s.get l1 → x ∈ s.get l2 → False

lemma Inv_iff_InvP (s : LState) : Inv s ↔ InvP s := by
  constructor
  · rintro ⟨h1, h2, h3⟩ x l1 l2 hne hx1 hx2
    cases l1 <;> cases l2 <;>
      first
        | exact hne rfl
        | exact (h1 _ hx1).1 hx2
        | exact (h1 _ hx1).2.1 hx2
        | exact (h1 _ hx1).2.2 hx2
        | exact (h1 _ hx2).1 hx1
        | exact (h1 _ hx2).2.1 hx1
        | exact (h1 _ hx2).2.2 hx1
        | exact (h2 _ hx1).1 hx2
        | exact (h2 _ hx1).2 hx2
        | exact (h2 _ hx2).1 hx1
        | exact (h2 _ hx2).2 hx1
        | exact h3 _ hx1 hx2
        | exact h3 _ hx2 hx1
  · intro h
    refine ⟨fun r hr => ⟨fun hc => h r .dirty .commit (by decide) hr hc,
        fun hc => h r .dirty .xferA (by decide) hr hc,
        fun hc => h r .dirty .xferB (by decide) hr hc⟩,
      fun r hr => ⟨fun hc => h r .commit .xferA (by decide) hr hc,
        fun hc => h r .commit .xferB (by decide) hr hc⟩,
      fun r hr hc => h r .xferA .xferB (by decide) hr hc⟩

lemma get_set (s : LState) (l : Loc) (v : List Nat) (l' : Loc) :
    (s.set l v).get l' = if l' = l then v else s.get l' := by
  cases l <;> cases l' <;> simp [LState.set, LState.get]

lemma mem_listRemove (s : LState) (r x : Nat) (l : Loc) :
    x ∈ (listRemove s r).get l ↔ x ∈ s.get l ∧ x ≠ r := by
  cases l <;> simp [listRemove, LState.get, List.mem_filter]

lemma onAnyList_of_mem (s : LState) (x : Nat) (l : Loc) (h : x ∈ s.get l) :
    onAnyList s x := by
  cases l with
  | dirty => exact Or.inl h
  | commit => exact Or.inr (Or.inl h)
  | xferA => exact Or.inr (Or.inr (Or.inl h))
  | xferB => exact Or.inr (Or.inr (Or.inr h))

lemma mem_listAdd (s : LState) (l : Loc) (r x : Nat) (l' : Loc) :
    x ∈ (listAdd s l r).get l' ↔
      (x ∈ s.get l' ∨ (¬ onAnyList s r ∧ l' = l ∧ x = r)) := by
  by_cases h : onAnyList s r
  · simp [listAdd, h]
  · simp only [listAdd, if_neg h, get_set]
    by_cases h2 : l' = l
    · subst h2
      simp only [if_pos rfl, if_true, eq_self_iff_true, List.mem_cons, h,
        not_false_iff, true_and]
      tauto
    · simp [h2]

lemma invP_listRemove (s : LState) (r : Nat) (h : InvP s) : InvP (listRemove s r) := by
  intro x l1 l2 hne h1 h2
  rw [mem_listRemove] at h1 h2
  exact h x l1 l2 hne h1.1 h2.1

lemma invP_listAdd (s : LState) (l : Loc) (r : Nat) (h : InvP s) : InvP (listAdd s l r) := by
  intro x l1 l2 hne h1 h2
  rw [mem_listAdd] at h1 h2
  rcases h1 with h1 | ⟨hn1, hl1, hx1⟩
  · rcases h2 with h2 | ⟨hn2, hl2, hx2⟩
    · exact h x l1 l2 hne h1 h2
    · subst hx2
      exact hn2 (onAnyList_of_mem s x l1 h1)
  · subst hx1
    rcases h2 with h2 | ⟨hn2, hl2, hx2⟩
    · exact hn1 (onAnyList_of_mem s x l2 h2)
    · exact hne (hl1.trans hl2.symm)

lemma invP_moveOne (dst : Loc) (s : LState) (r : Nat) (h : InvP s) :
    InvP (moveOne dst s r) :=
  invP_listAdd _ dst r (invP_listRemove s r h)

lemma invP_foldl {α : Type} (f : LState → α → LState)
    (hf : ∀ st a, InvP st → InvP (f st a)) :
    ∀ (l : List α) (s : LState), InvP s → InvP (l.foldl f s) := by
  intro l
  induction l with
  | nil => intro s h; exact h
  | cons a l ih => intro s h; exact ih (f s a) (hf s a h)

lemma invP_step (op : WOp) (s : LState) (h : InvP s) : InvP (step op s) := by
  cases op with
  | insert l r => exact invP_listAdd s l r h
  | remove r => exact invP_listRemove s r h
  | markDirty r => exact invP_listAdd s .dirty r h
  | markCommit r => exact invP_listAdd s .commit r h
  | transfer src dst pick =>
    refine invP_foldl _ ?_ _ s h
    intro st a hst
    by_cases hp : pick a = true
    · simpa [hp] using invP_moveOne dst st a hst
    · simpa [hp] using hst
  | complete outcome =>
    refine invP_foldl _ ?_ _ s h
    intro st a hst
    cases ho : outcome a with
    | none => simpa [ho] using invP_listRemove st a hst
    | some l => simpa [ho] using invP_moveOne l st a hst

/-- C8: every membership operation of write.c — raw insert and remove, the
guarded mark-dirty and mark-commit moves, the scan/coalesce bulk transfers
and the completion handlers — preserves the invariant that a request is on
at most one of the dirty, commit and in-flight lists. -/
theorem nfs_single_membership (op : WOp) (s : LState) (h : Inv s) : Inv (step op s) :=
  (Inv_iff_InvP _).mpr (invP_step op s ((Inv_iff_InvP s).mp h))

/-- Witness for `nfs_single_membership`: marking request 3 dirty in a state
with request 1 dirty and request 2 pending commit. -/
theorem nfs_single_membership_w :
    Inv (step (WOp.markDirty 3) ⟨[1], [2], [], []⟩) :=
  nfs_single_membership (WOp.markDirty 3) ⟨[1], [2], [], []⟩ (by decide)

end NfsWrite
